import Mathlib

/-!
Verification development for the chasqui-server repository.

Rust strings are embedded as `List Char` (`Rstr`), and `HashMap<String, _>`
values as association lists (`SMap`) with HashMap semantics: `findA` returns
the value of the unique live binding of a key, `insertA` overwrites it, and
`eraseA` removes it.  Filesystem paths are embedded at the component level,
mirroring `std::path::Component`.  The sync orchestrator's external trait
objects (`PageRepository`, `ContentReader`, `ContentBuildNotifier`) are
modelled by explicit oracle parameters at their trait boundary; everything
inside the repository's own functions is translated from the source.
-/

/-- Embedding of a Rust `String` / `&str` as its list of characters. -/
abbrev Rstr := List Char

/-- Shorthand to write a concrete `Rstr` from a Lean string literal. -/
def str (s : String) : Rstr := s.data

/-- Association list with `HashMap` semantics, keyed by strings. -/
abbrev SMap (α : Type) := List (Rstr × α)

/-- `HashMap::get` (cloned): value of the first binding of `key`. -/
def findA {α : Type} : SMap α → Rstr → Option α
  | [], _ => none
  | (k, v) :: rest, key => if k = key then some v else findA rest key

/-- `HashMap::insert`: overwrite the binding of `key`, or append a new one. -/
def insertA {α : Type} : SMap α → Rstr → α → SMap α
  | [], key, v => [(key, v)]
  | (k, w) :: rest, key, v =>
    if k = key then (k, v) :: rest else (k, w) :: insertA rest key v

/-- `HashMap::remove`: drop every binding of `key` (HashMap keys are unique,
so on maps built by `insertA` this is the removal of the one binding). -/
def eraseA {α : Type} (m : SMap α) (key : Rstr) : SMap α :=
  m.filter (fun kv => !(kv.1 = key : Bool))

/-- `HashMap::contains_key`. -/
def containsA {α : Type} (m : SMap α) (key : Rstr) : Bool :=
  (findA m key).isSome

/-- Embedding of Rust `str::split(sep)`: the list of (possibly empty)
chunks between occurrences of `sep`. -/
def splitChar (sep : Char) : List Char → List (List Char)
  | [] => [[]]
  | x :: xs =>
    if x = sep then [] :: splitChar sep xs
    else
      match splitChar sep xs with
      | h :: t => (x :: h) :: t
      | [] => [[x]]

/-- Embedding of `std::path::Component` for Unix-style paths. -/
inductive Component where
  | normal (name : Rstr)
  | parentDir
  | curDir
  | rootDir
deriving DecidableEq, BEq

/-- Map one segment of a `/`-separated path to its `Component`; empty
segments are skipped by `Path::components`. -/
def segComponent (seg : Rstr) : Option Component :=
  if seg = [] then none
  else if seg = str "." then some Component.curDir
  else if seg = str ".." then some Component.parentDir
  else some (Component.normal seg)

/-- Embedding of `Path::components()` on a Unix-style path string: split on
`/`, skip empty segments, classify the rest.  (`Path::components` drops a
`.` segment that is not leading; every consumer below treats `curDir` as a
no-op, so keeping interior `.` segments is observationally equal.) -/
def pathComponents (s : Rstr) : List Component :=
  let segs := (splitChar '/' s).filterMap segComponent
  match s with
  | [] => segs
  | c :: _ => if c = '/' then Component.rootDir :: segs else segs

/-- Render a component back to text (used when re-joining a stripped path). -/
def componentText : Component → Rstr
  | Component.normal name => name
  | Component.parentDir => str ".."
  | Component.curDir => str "."
  | Component.rootDir => []

/-- Join path fragments with `/` separators. -/
def joinSlash : List Rstr → Rstr
  | [] => []
  | [p] => p
  | p :: rest => p ++ '/' :: joinSlash rest

/-- The loop body of `normalize_path_string` (pages_manifest.rs:96-114):
`Vec` of kept names, `CurDir` skipped, `ParentDir` pops, `Normal` pushes,
anything else skipped. -/
def normalizeStep (acc : List Rstr) (c : Component) : List Rstr :=
  match c with
  | Component.curDir => acc
  | Component.parentDir => acc.dropLast
  | Component.normal name => acc ++ [name]
  | Component.rootDir => acc

/-- The kept names after the loop of `normalize_path_string`. -/
def normalizeComponents (cs : List Component) : List Rstr :=
  cs.foldl normalizeStep []

/-- Embedding of `normalize_path_string` (pages_manifest.rs:96-114). -/
def normalize_path_string (cs : List Component) : Rstr :=
  joinSlash (normalizeComponents cs)

/-- Embedding of the `Manifest` struct (pages_manifest.rs:6-9). -/
structure Manifest where
  filename_to_identifier : SMap Rstr
  identifier_to_filename : SMap Rstr
deriving DecidableEq, BEq

/-- `Manifest::new` (pages_manifest.rs:12-17). -/
def Manifest.new : Manifest :=
  { filename_to_identifier := [], identifier_to_filename := [] }

/-- `Manifest::insert` (pages_manifest.rs:19-23). -/
def Manifest.insert (m : Manifest) (filename identifier : Rstr) : Manifest :=
  { filename_to_identifier := insertA m.filename_to_identifier filename identifier,
    identifier_to_filename := insertA m.identifier_to_filename identifier filename }

/-- `Manifest::remove_by_filename` (pages_manifest.rs:25-29). -/
def Manifest.remove_by_filename (m : Manifest) (filename : Rstr) : Manifest :=
  match findA m.filename_to_identifier filename with
  | some identifier =>
    { filename_to_identifier := eraseA m.filename_to_identifier filename,
      identifier_to_filename := eraseA m.identifier_to_filename identifier }
  | none => m

/-- `Manifest::get_identifier_for_filename` (pages_manifest.rs:31-33). -/
def Manifest.get_identifier_for_filename (m : Manifest) (filename : Rstr) : Option Rstr :=
  findA m.filename_to_identifier filename

/-- `Manifest::get_filename_for_identifier` (pages_manifest.rs:35-37). -/
def Manifest.get_filename_for_identifier (m : Manifest) (identifier : Rstr) : Option Rstr :=
  findA m.identifier_to_filename identifier

/-- `Manifest::has_identifier` (pages_manifest.rs:39-41). -/
def Manifest.has_identifier (m : Manifest) (identifier : Rstr) : Bool :=
  containsA m.identifier_to_filename identifier

/-- The fields of `ChasquiConfig` (config.rs plus the `serve_home` and
`home_identifier` fields the sync service reads) that the sync code consults.
`content_dir` is kept as a Unix-style path string. -/
structure ChasquiConfig where
  content_dir : Rstr
  strip_extensions : Bool
  serve_home : Bool
  home_identifier : Rstr
deriving DecidableEq, BEq

/-- The external-link / anchor-only filter at the top of `resolve_link`
(pages_manifest.rs:49-55). -/
def isExternalLink (link : Rstr) : Bool :=
  (str "http://").isPrefixOf link || (str "https://").isPrefixOf link ||
    (str "mailto:").isPrefixOf link || ['#'].isPrefixOf link

/-- The relative-path test of `resolve_link` (pages_manifest.rs:63). -/
def isRelativeLookup (raw_lookup : Rstr) : Bool :=
  (str "./").isPrefixOf raw_lookup || (str "../").isPrefixOf raw_lookup

/-- The lookup key of `resolve_link` (pages_manifest.rs:62-70): for `./` and
`../` links, `PathBuf::from(current_filename)` popped and joined with the
lookup, normalized; otherwise all leading `/` trimmed. -/
def resolveLookupKey (raw_lookup current_filename : Rstr) : Rstr :=
  if isRelativeLookup raw_lookup then
    normalize_path_string
      ((pathComponents current_filename).dropLast ++ pathComponents raw_lookup)
  else
    raw_lookup.dropWhile (fun c => c = '/')

/-- Embedding of `Manifest::resolve_link` (pages_manifest.rs:47-93). -/
def Manifest.resolve_link (m : Manifest) (link current_filename : Rstr)
    (config : ChasquiConfig) : Rstr :=
  if isExternalLink link then link
  else
    let parts := splitChar '#' link
    let raw_lookup := parts.headD []
    let fragment := ((parts.get? 1).map (fun f => '#' :: f)).getD []
    let lookup_key := resolveLookupKey raw_lookup current_filename
    let resolved_identifier :=
      match findA m.filename_to_identifier lookup_key with
      | some identifier => some identifier
      | none =>
        if containsA m.identifier_to_filename lookup_key then some lookup_key
        else none
    match resolved_identifier with
    | some id =>
      if config.serve_home && id = config.home_identifier then '/' :: fragment
      else '/' :: (id ++ fragment)
    | none => link

/-- The start-depth computation of `verify_relative_path` (io/mod.rs:36-43):
the number of `Normal` components in the parent of the base file. -/
def countNormals (cs : List Component) : Nat :=
  (cs.filter (fun c => match c with | Component.normal _ => true | _ => false)).length

/-- The traversal loop of `verify_relative_path` (io/mod.rs:45-59): `Normal`
increments the depth, `ParentDir` decrements and bails out if it goes below
zero, everything else is a no-op. -/
def traversalOk : Int → List Component → Bool
  | _, [] => true
  | d, c :: cs =>
    match c with
    | Component.normal _ => traversalOk (d + 1) cs
    | Component.parentDir => if d - 1 < 0 then false else traversalOk (d - 1) cs
    | _ => traversalOk d cs

/-- Whether a component list is an absolute path (leading `RootDir`),
mirroring `Path::is_absolute` on Unix. -/
def isAbsoluteComponents : List Component → Bool
  | Component.rootDir :: _ => true
  | _ => false

/-- Embedding of `PathBuf::push` at the component level: pushing an
absolute path replaces the accumulated path entirely, otherwise the pushed
components are appended. -/
def pathPush (base addition : List Component) : List Component :=
  match addition with
  | Component.rootDir :: _ => addition
  | _ => base ++ addition

/-- Embedding of `verify_relative_path` (io/mod.rs:30-68) at the component
level: `none` is the `Security Violation: Traversal above root` error, `some`
is the `VerifiedPath` built by `root.to_path_buf()`, `push(parent)`,
`push(link)` — where each `push` of an absolute path replaces what was
accumulated so far. -/
def verify_relative_path (root base_rel_file link : List Component) :
    Option (List Component) :=
  let depth : Int := (countNormals base_rel_file.dropLast : Int)
  if traversalOk depth link then
    some (pathPush (pathPush root base_rel_file.dropLast) link)
  else none

/-- Lexical depth of a component list: `+1` per `Normal`, `-1` per
`ParentDir` (the measure the spec's safety sentence is about). -/
def lexicalDepth : List Component → Int
  | [] => 0
  | Component.normal _ :: cs => lexicalDepth cs + 1
  | Component.parentDir :: cs => lexicalDepth cs - 1
  | _ :: cs => lexicalDepth cs

/-- A component list free of `ParentDir` components. -/
def noParentDir (cs : List Component) : Bool :=
  cs.all (fun c => !(c = Component.parentDir : Bool))

/-- Abstraction of one `pulldown_cmark::Event`: `compile_markdown_to_html`
rewrites the destination of every `Start(Tag::Link)` event and passes every
other event through, so the event stream is modelled as link-start events
(with their destination URL) interleaved with opaque other events. -/
inductive MdEvent where
  | linkStart (dest : Rstr)
  | other (token : Nat)
deriving DecidableEq, BEq

/-- Embedding of `compile_markdown_to_html` (parser/markdown.rs:42-79): map
the resolver over the destination of every link-start event, leave every
other event untouched.  (The final `push_html` serialization of the event
stream is the external library's; the rendered document is represented by
its rewritten event stream.) -/
def compile_markdown_to_html (events : List MdEvent) (resolver : Rstr → Rstr) :
    List MdEvent :=
  events.map
    (fun e =>
      match e with
      | MdEvent.linkStart dest => MdEvent.linkStart (resolver dest)
      | MdEvent.other t => MdEvent.other t)

/-- Embedding of the `Page` domain entity (domain/page.rs): markdown and
rendered HTML are carried as event streams (see `MdEvent`), timestamps as
opaque integers. -/
structure Page where
  identifier : Rstr
  filename : Rstr
  name : Option Rstr
  html_content : List MdEvent
  md_content : List MdEvent
  md_content_hash : Rstr
  tags : List Rstr
  modified_datetime : Option Int
  created_datetime : Option Int
deriving DecidableEq, BEq

/-- Embedding of `PageDraft` (features/pages/model.rs:34-43); `content_body`
is the body's event stream. -/
structure PageDraft where
  filename : Rstr
  identifier : Rstr
  name : Option Rstr
  content_body : List MdEvent
  md_content_hash : Rstr
  tags : List Rstr
  modified_datetime : Option Int
  created_datetime : Option Int
deriving DecidableEq, BEq

/-- Embedding of `DbPage` (features/pages/model.rs:9-19): the stored row,
whose `tags` column is an optional JSON text. -/
structure DbPage where
  identifier : Rstr
  filename : Rstr
  name : Option Rstr
  html_content : List MdEvent
  md_content : List MdEvent
  md_content_hash : Rstr
  tags : Option Rstr
  modified_datetime : Option Int
  created_datetime : Option Int
deriving DecidableEq, BEq

/-- Lowercase hex digit, as serde_json emits in `\u00XX` escapes. -/
def hexLowerDigit (n : Nat) : Char :=
  Char.ofNat (n + (if n < 10 then 48 else 87))

/-- Parse one hex digit (serde_json accepts both cases). -/
def parseHexDigit (c : Char) : Option Nat :=
  if 48 ≤ c.toNat ∧ c.toNat ≤ 57 then some (c.toNat - 48)
  else if 97 ≤ c.toNat ∧ c.toNat ≤ 102 then some (c.toNat - 87)
  else if 65 ≤ c.toNat ∧ c.toNat ≤ 70 then some (c.toNat - 55)
  else none

/-- serde_json's escaping of one character inside a JSON string: quote and
backslash get a two-character escape, the five named control characters get
theirs, the remaining control characters get `\u00XX`, and everything else
passes through. -/
def escapeChar (c : Char) : List Char :=
  if c = '"' then ['\\', '"']
  else if c = '\\' then ['\\', '\\']
  else if c = Char.ofNat 8 then ['\\', 'b']
  else if c = Char.ofNat 9 then ['\\', 't']
  else if c = Char.ofNat 10 then ['\\', 'n']
  else if c = Char.ofNat 12 then ['\\', 'f']
  else if c = Char.ofNat 13 then ['\\', 'r']
  else if c.toNat < 32 then
    ['\\', 'u', '0', '0'] ++ [hexLowerDigit (c.toNat / 16)] ++ [hexLowerDigit (c.toNat % 16)]
  else [c]

/-- Escape a whole string body. -/
def escapeAll : List Char → List Char
  | [] => []
  | c :: cs => escapeChar c ++ escapeAll cs

/-- serde_json's rendering of one string literal. -/
def encodeJsonString (s : Rstr) : List Char :=
  '"' :: escapeAll s ++ ['"']

/-- The items of a JSON array after its first item: `,item...]` or `]`. -/
def encodeJsonTagsTail : List Rstr → List Char
  | [] => [']']
  | t :: ts => ',' :: encodeJsonString t ++ encodeJsonTagsTail ts

/-- Model of `serde_json::to_string::<Vec<String>>`: `[item,...]` with no
interior whitespace, which is exactly what serde_json's compact writer
emits. -/
def jsonEncodeStringList : List Rstr → List Char
  | [] => ['[', ']']
  | t :: ts => '[' :: encodeJsonString t ++ encodeJsonTagsTail ts

/-- Resolution of one two-character escape `\e` (everything except `\u`). -/
def unescapeChar (e : Char) : Option Char :=
  if e = '"' then some '"'
  else if e = '\\' then some '\\'
  else if e = '/' then some '/'
  else if e = 'b' then some (Char.ofNat 8)
  else if e = 'f' then some (Char.ofNat 12)
  else if e = 'n' then some (Char.ofNat 10)
  else if e = 'r' then some (Char.ofNat 13)
  else if e = 't' then some (Char.ofNat 9)
  else none

/-- One step of the JSON string-body scanner: `none` on malformed input,
`some (none, rest)` at the closing quote, `some (some c, rest)` after
decoding one (possibly escaped) character. -/
def decodeOne (l : List Char) : Option (Option Char × List Char) :=
  match l with
  | [] => none
  | c :: rest =>
    if c = '"' then some (none, rest)
    else if c = '\\' then
      match rest with
      | [] => none
      | e :: rest2 =>
        if e = 'u' then
          match rest2 with
          | h1 :: h2 :: h3 :: h4 :: rest3 =>
            match parseHexDigit h1, parseHexDigit h2, parseHexDigit h3, parseHexDigit h4 with
            | some d1, some d2, some d3, some d4 =>
              let n := ((d1 * 16 + d2) * 16 + d3) * 16 + d4
              if n < 55296 then some (some (Char.ofNat n), rest3) else none
            | _, _, _, _ => none
          | _ => none
        else
          match unescapeChar e with
          | some c2 => some (some c2, rest2)
          | none => none
    else some (some c, rest)

/-- The JSON string-body scanner with explicit fuel (one unit per decoded
character; `length + 1` fuel is enough for every input, so the fuel is never
the limiting factor): content of a string literal after its opening quote,
with the input following the closing quote. -/
def decodeBodyFuel : Nat → List Char → Option (List Char × List Char)
  | 0, _ => none
  | Nat.succ n, l =>
    match decodeOne l with
    | none => none
    | some (none, rest) => some ([], rest)
    | some (some c, rest) =>
      match decodeBodyFuel n rest with
      | some (s, rest2) => some (c :: s, rest2)
      | none => none

/-- Scanner for the items of a JSON array of strings after the first item:
`,"item"...]` or `]` (one unit of fuel per item). -/
def decodeTagsTailFuel : Nat → List Char → Option (List (List Char) × List Char)
  | 0, _ => none
  | Nat.succ n, l =>
    match l with
    | ']' :: rest => some ([], rest)
    | ',' :: '"' :: rest =>
      match decodeBodyFuel (rest.length + 1) rest with
      | some (s, rest2) =>
        match decodeTagsTailFuel n rest2 with
        | some (ss, rest3) => some (s :: ss, rest3)
        | none => none
      | none => none
    | _ => none

/-- Model of `serde_json::from_str::<Vec<String>>` on the compact grammar
`serde_json::to_string` emits: a `[`, string literals separated by `,`, a
closing `]`, and nothing after it. -/
def jsonDecodeStringList (l : Rstr) : Option (List Rstr) :=
  match l with
  | '[' :: rest =>
    match rest with
    | ']' :: rest2 => if rest2 = [] then some [] else none
    | '"' :: rest2 =>
      match decodeBodyFuel (rest2.length + 1) rest2 with
      | some (s, rest3) =>
        match decodeTagsTailFuel (rest3.length + 1) rest3 with
        | some (ss, rest4) => if rest4 = [] then some (s :: ss) else none
        | none => none
      | none => none
    | _ => none
  | _ => none

/-- Embedding of `From<&Page> for DbPage` (features/pages/model.rs:72-92):
empty `tags` are stored as an absent column, otherwise the JSON encoding. -/
def pageToDbPage (page : Page) : DbPage :=
  { identifier := page.identifier
    filename := page.filename
    name := page.name
    html_content := page.html_content
    md_content := page.md_content
    md_content_hash := page.md_content_hash
    tags := if page.tags.isEmpty then none else some (jsonEncodeStringList page.tags)
    modified_datetime := page.modified_datetime
    created_datetime := page.created_datetime }

/-- Embedding of `TryFrom<DbPage> for Page` (features/pages/model.rs:45-70):
an absent `tags` column reads back as the empty sequence, a present one must
parse as a JSON array of strings. -/
def dbPageToPage (db_page : DbPage) : Except Unit Page :=
  match db_page.tags with
  | some tags_str =>
    match jsonDecodeStringList tags_str with
    | some parsed_tags =>
      Except.ok
        { identifier := db_page.identifier
          filename := db_page.filename
          name := db_page.name
          html_content := db_page.html_content
          md_content := db_page.md_content
          md_content_hash := db_page.md_content_hash
          tags := parsed_tags
          modified_datetime := db_page.modified_datetime
          created_datetime := db_page.created_datetime }
    | none => Except.error ()
  | none =>
    Except.ok
      { identifier := db_page.identifier
        filename := db_page.filename
        name := db_page.name
        html_content := db_page.html_content
        md_content := db_page.md_content
        md_content_hash := db_page.md_content_hash
        tags := []
        modified_datetime := db_page.modified_datetime
        created_datetime := db_page.created_datetime }

/-- Embedding of `str::replace("\\", "/")`. -/
def replaceBackslash (s : Rstr) : Rstr :=
  s.map (fun c => if c = '\\' then '/' else c)

/-- Split a path string into everything up to and including the last `/`
and the final file name (the `Path::file_name` of the path). -/
def splitLastSlash (p : Rstr) : Rstr × Rstr :=
  (p.take (p.length - (p.reverse.takeWhile (fun c => !(c = '/' : Bool))).length),
    (p.reverse.takeWhile (fun c => !(c = '/' : Bool))).reverse)

/-- `with_extension("")` on a single file name: the extension is the part
after the last `.`, and exists only when that `.` is not the first
character; removing it removes the dot too. -/
def removeExtension (comp : Rstr) : Rstr :=
  if (comp.reverse.takeWhile (fun c => !(c = '.' : Bool))).length
      = comp.reverse.length then comp
  else if comp.reverse.drop
      ((comp.reverse.takeWhile (fun c => !(c = '.' : Bool))).length + 1) = []
    then comp
  else (comp.reverse.drop
      ((comp.reverse.takeWhile (fun c => !(c = '.' : Bool))).length + 1)).reverse

/-- `Path::with_extension("")` on a relative path: strip the extension of
the final component, keep the rest. -/
def withExtensionEmpty (p : Rstr) : Rstr :=
  (splitLastSlash p).1 ++ removeExtension (splitLastSlash p).2

/-- Embedding of `generate_default_identifier` (sync.rs:308-313). -/
def generate_default_identifier (relative_path : Rstr) : Rstr :=
  replaceBackslash (withExtensionEmpty relative_path)

/-- The identifier resolution of `discover_page_draft` (sync.rs:103-105):
the frontmatter identifier if present, else the generated default. -/
def resolveDraftIdentifier (frontmatter_identifier : Option Rstr)
    (relative_path : Rstr) : Rstr :=
  frontmatter_identifier.getD (generate_default_identifier relative_path)

/-- Embedding of `Path::strip_prefix` on Unix-style path strings: succeeds
when the root's components are a prefix of the path's components, returning
the remainder re-joined with `/`. -/
def stripRoot (root p : Rstr) : Option Rstr :=
  let rc := pathComponents root
  let pc := pathComponents p
  if rc.isPrefixOf pc then some (joinSlash ((pc.drop rc.length).map componentText))
  else none

/-- The content-root-relative filename computation of `discover_page_draft`
(sync.rs:91-96): `strip_prefix` failure is the `File ... is outside of
content dir` error; on success backslashes are replaced by `/`. -/
def discoverRelativeFilename (content_dir path : Rstr) : Except Unit Rstr :=
  match stripRoot content_dir path with
  | some relative_path => Except.ok (replaceBackslash relative_path)
  | none => Except.error ()

/-- Oracle for the external `PageRepository` trait object: which `save_page`
and `delete_page` calls fail. -/
structure RepoOracle where
  saveFails : Page → Bool
  deleteFails : Rstr → Bool

/-- The mutable state of `SyncService`: the manifest, the read cache
(`SyncCache.pages_by_filename`, pages_cache.rs:5-7) and the page repository
keyed by filename (`save_page` is an upsert on filename). -/
structure SyncState where
  manifest : Manifest
  cache : SMap Page
  repo : SMap Page
deriving DecidableEq, BEq

/-- The compile-and-assemble head of `SyncService::handle_file_changed`
(sync.rs:257-279): compile the body with manifest-based link resolution
against the current state's manifest and assemble the `Page`. -/
def pageOfDraft (config : ChasquiConfig) (st : SyncState) (draft : PageDraft) : Page :=
  { identifier := draft.identifier
    filename := draft.filename
    name := draft.name
    html_content := compile_markdown_to_html draft.content_body
      (fun link => st.manifest.resolve_link link draft.filename config)
    md_content := draft.content_body
    md_content_hash := draft.md_content_hash
    tags := draft.tags
    modified_datetime := draft.modified_datetime
    created_datetime := draft.created_datetime }

/-- The save-and-cache tail of `handle_file_changed` (sync.rs:281-290). -/
def handle_file_changed (o : RepoOracle) (config : ChasquiConfig)
    (st : SyncState) (draft : PageDraft) : Except Unit Unit × SyncState :=
  let page := pageOfDraft config st draft
  if o.saveFails page then (Except.error (), st)
  else
    (Except.ok (),
      { st with
        repo := insertA st.repo page.filename page
        cache := insertA st.cache page.filename page })

/-- Embedding of `SyncService::handle_file_deleted` (sync.rs:293-305):
`strip_prefix` failure falls back to the full path (`unwrap_or(path)`), the
repository delete may fail (aborting before cache and manifest removal). -/
def handle_file_deleted (o : RepoOracle) (config : ChasquiConfig)
    (st : SyncState) (path : Rstr) : Except Unit Unit × SyncState :=
  let relative_path := (stripRoot config.content_dir path).getD path
  let filename := replaceBackslash relative_path
  if o.deleteFails filename then (Except.error (), st)
  else
    (Except.ok (),
      { st with
        repo := eraseA st.repo filename
        cache := eraseA st.cache filename
        manifest := st.manifest.remove_by_filename filename })

/-- The in-batch claim census of `validate_batch_collisions`
(sync.rs:130-137): how many drafts of the batch claim an identifier. -/
def claimCount (drafts : List PageDraft) (identifier : Rstr) : Nat :=
  (drafts.filter (fun d => d.identifier = identifier)).length

/-- Embedding of `SyncService::validate_batch_collisions` (sync.rs:128-169). -/
def validate_batch_collisions (manifest : Manifest) (drafts : List PageDraft) :
    List PageDraft :=
  drafts.filter
    (fun draft =>
      if claimCount drafts draft.identifier > 1 then false
      else if manifest.has_identifier draft.identifier &&
          !(manifest.get_filename_for_identifier draft.identifier
              = some draft.filename : Bool) then false
      else true)

/-- The manifest half of the collision policy (sync.rs:154-165) as a
predicate: a draft passes when its identifier is unbound in the manifest or
bound to the draft's own filename. -/
def manifestAllows (manifest : Manifest) (draft : PageDraft) : Bool :=
  !(manifest.has_identifier draft.identifier &&
    !(manifest.get_filename_for_identifier draft.identifier
        = some draft.filename : Bool))

/-- The deletion pass of `process_batch` (sync.rs:178-181): each deletion is
handled in turn and an error aborts the batch (the `?`). -/
def deletionPass (o : RepoOracle) (config : ChasquiConfig) :
    SyncState → List Rstr → Except Unit Unit × SyncState
  | st, [] => (Except.ok (), st)
  | st, path :: paths =>
    match handle_file_deleted o config st path with
    | (Except.ok _, st2) => deletionPass o config st2 paths
    | (Except.error e, st2) => (Except.error e, st2)

/-- The discovery pass of `process_batch` (sync.rs:183-194): failed
discoveries are logged and skipped, successful ones collected in order. -/
def discoveryPass (disc : Rstr → Except Unit PageDraft) (changes : List Rstr) :
    List PageDraft :=
  changes.filterMap (fun path => (disc path).toOption)

/-- The ingestion pass of `process_batch` (sync.rs:207-210): each valid
draft is handled in turn and an error aborts the loop (the `?`). -/
def ingestionPass (o : RepoOracle) (config : ChasquiConfig) :
    SyncState → List PageDraft → Except Unit Unit × SyncState
  | st, [] => (Except.ok (), st)
  | st, draft :: drafts =>
    match handle_file_changed o config st draft with
    | (Except.ok _, st2) => ingestionPass o config st2 drafts
    | (Except.error e, st2) => (Except.error e, st2)

/-- Embedding of `SyncService::process_batch` (sync.rs:173-213): deletions,
discovery, collision validation, manifest registration of every valid
draft, then ingestion.  `disc` is `discover_page_draft` at its trait
boundary (the reader and frontmatter parser are external). -/
def process_batch (o : RepoOracle) (config : ChasquiConfig)
    (disc : Rstr → Except Unit PageDraft) (st : SyncState)
    (changes deletions : List Rstr) : Except Unit Unit × SyncState :=
  match deletionPass o config st deletions with
  | (Except.error e, st1) => (Except.error e, st1)
  | (Except.ok _, st1) =>
    let drafts := discoveryPass disc changes
    let valid_drafts := validate_batch_collisions st1.manifest drafts
    let st2 := { st1 with
      manifest := valid_drafts.foldl
        (fun m draft => m.insert draft.filename draft.identifier) st1.manifest }
    ingestionPass o config st2 valid_drafts

/-- The mutual-inverse invariant of the manifest's two maps (spec §3
invariant 2). -/
def mutualInverse (m : Manifest) : Prop :=
  ∀ f i, findA m.filename_to_identifier f = some i ↔
    findA m.identifier_to_filename i = some f

/-- Injectivity of `identifier_to_filename` (spec §3 invariant 1). -/
def reverseInjective (m : Manifest) : Prop :=
  ∀ i1 i2 f, findA m.identifier_to_filename i1 = some f →
    findA m.identifier_to_filename i2 = some f → i1 = i2

/-- The claim's (spec's) flag-dependent default identifier, stated from the
spec's words for comparison with `generate_default_identifier`: keep the
relative path as-is unless `strip_extensions` is set, in which case drop the
extension. -/
def specDefaultIdentifier (config : ChasquiConfig) (relative_path : Rstr) : Rstr :=
  if config.strip_extensions then withExtensionEmpty relative_path
  else relative_path

/-- A configuration with `strip_extensions`, `serve_home` both off. -/
def plainConfig : ChasquiConfig :=
  { content_dir := str "/content"
    strip_extensions := false
    serve_home := false
    home_identifier := str "index" }

/-- The empty sync state (fresh manifest, cache and repository). -/
def initialState : SyncState :=
  { manifest := Manifest.new, cache := [], repo := [] }

/-- A repository oracle whose operations never fail. -/
def reliableRepo : RepoOracle :=
  { saveFails := fun _ => false, deleteFails := fun _ => false }

/-- A draft of `a.md` whose body links to `b.md`. -/
def draftALinked : PageDraft :=
  { filename := str "a.md"
    identifier := str "a"
    name := none
    content_body := [MdEvent.linkStart (str "b.md")]
    md_content_hash := str "ha"
    tags := []
    modified_datetime := none
    created_datetime := none }

/-- A draft of `b.md` with no links. -/
def draftBPlain : PageDraft :=
  { filename := str "b.md"
    identifier := str "b"
    name := none
    content_body := []
    md_content_hash := str "hb"
    tags := []
    modified_datetime := none
    created_datetime := none }

/-- Discovery oracle serving `a.md` and `b.md`. -/
def discAB : Rstr → Except Unit PageDraft := fun path =>
  if path = str "a.md" then Except.ok draftALinked
  else if path = str "b.md" then Except.ok draftBPlain
  else Except.error ()

/-- A repository oracle that fails exactly the save of `a.md`. -/
def failSaveA : RepoOracle :=
  { saveFails := fun page => page.filename = str "a.md"
    deleteFails := fun _ => false }

/-- A manifest holding the single page `a` with identifier `x`. -/
def manifestAX : Manifest :=
  { filename_to_identifier := [(str "a", str "x")]
    identifier_to_filename := [(str "x", str "a")] }

/-- A manifest holding the single page `b.md` with identifier `b`. -/
def manifestB : Manifest :=
  { filename_to_identifier := [(str "b.md", str "b")]
    identifier_to_filename := [(str "b", str "b.md")] }

/-- A repository oracle that fails exactly the save of `b.md`. -/
def failSaveB : RepoOracle :=
  { saveFails := fun page => page.filename = str "b.md"
    deleteFails := fun _ => false }

/-- A sync state whose manifest already holds `b.md ⇄ b`, as after a boot
that loaded `b.md` from the repository. -/
def populatedState : SyncState :=
  { manifest := manifestB, cache := [], repo := [] }

/-- A draft fixture: `x1.md` claiming identifier `dup`. -/
def draftDup1 : PageDraft :=
  { filename := str "x1.md", identifier := str "dup", name := none
    content_body := [], md_content_hash := str "h1", tags := []
    modified_datetime := none, created_datetime := none }

/-- A draft fixture: `x2.md` also claiming identifier `dup`. -/
def draftDup2 : PageDraft :=
  { filename := str "x2.md", identifier := str "dup", name := none
    content_body := [], md_content_hash := str "h2", tags := []
    modified_datetime := none, created_datetime := none }

/-- A draft fixture: `z.md` claiming the fresh identifier `z`. -/
def draftZ : PageDraft :=
  { filename := str "z.md", identifier := str "z", name := none
    content_body := [], md_content_hash := str "h3", tags := []
    modified_datetime := none, created_datetime := none }

/-- A draft of `c.md` with no links. -/
def draftCPlain : PageDraft :=
  { filename := str "c.md"
    identifier := str "c"
    name := none
    content_body := []
    md_content_hash := str "hc"
    tags := []
    modified_datetime := none
    created_datetime := none }

/-- Discovery oracle serving the link-free drafts `b.md` and `c.md`. -/
def discBC : Rstr → Except Unit PageDraft := fun path =>
  if path = str "b.md" then Except.ok draftBPlain
  else if path = str "c.md" then Except.ok draftCPlain
  else Except.error ()

theorem findA_insertA {α : Type} (m : SMap α) (k k' : Rstr) (v : α) :
    findA (insertA m k v) k' = if k = k' then some v else findA m k' := by
  induction m with
  | nil => simp [insertA, findA]
  | cons hd tl ih =>
    obtain ⟨hk, hv⟩ := hd
    by_cases h1 : hk = k
    · subst h1
      by_cases h2 : hk = k' <;> simp [insertA, findA, h2]
    · by_cases h2 : hk = k'
      · subst h2
        have : ¬ k = hk := fun h => h1 h.symm
        simp [insertA, findA, h1, this]
      · simp [insertA, findA, h1, h2, ih]

theorem findA_eraseA {α : Type} (m : SMap α) (k k' : Rstr) :
    findA (eraseA m k) k' = if k = k' then none else findA m k' := by
  induction m with
  | nil => simp [eraseA, findA]
  | cons hd tl ih =>
    obtain ⟨hk, hv⟩ := hd
    by_cases h1 : hk = k
    · subst h1
      by_cases h2 : hk = k'
      · subst h2
        simpa [eraseA, findA] using ih
      · have : ¬ k' = hk := fun h => h2 h.symm
        simp only [eraseA, List.filter] at ih ⊢
        simp [h2, ih, findA]
    · by_cases h2 : hk = k'
      · subst h2
        have hne : ¬ k = hk := fun h => h1 h.symm
        simp only [eraseA, List.filter] at ih ⊢
        simp [h1, hne, findA]
      · simp only [eraseA, List.filter] at ih ⊢
        simp [h1, h2, ih, findA]

theorem splitChar_ne_nil (sep : Char) (l : List Char) : splitChar sep l ≠ [] := by
  cases l with
  | nil => simp [splitChar]
  | cons x xs =>
    by_cases h : x = sep
    · simp [splitChar, h]
    · simp only [splitChar, h, if_false]
      cases splitChar sep xs <;> simp

theorem splitChar_append (sep : Char) (xs ys : List Char) (h : sep ∉ xs) :
    splitChar sep (xs ++ sep :: ys) = xs :: splitChar sep ys := by
  induction xs with
  | nil => simp [splitChar]
  | cons a as ih =>
    have ha : ¬ a = sep := by
      intro hEq; exact h (by simp [hEq])
    have has : sep ∉ as := fun hm => h (by simp [hm])
    simp only [List.cons_append, splitChar, ha, if_false]
    rw [List.append_eq, ih has]

theorem splitChar_not_mem (sep : Char) (xs : List Char) (h : sep ∉ xs) :
    splitChar sep xs = [xs] := by
  induction xs with
  | nil => simp [splitChar]
  | cons a as ih =>
    have ha : ¬ a = sep := by
      intro hEq; exact h (by simp [hEq])
    have has : sep ∉ as := fun hm => h (by simp [hm])
    simp [splitChar, ha, ih has]

theorem parseHexDigit_hexLower (m : Nat) (h : m < 16) :
    parseHexDigit (hexLowerDigit m) = some m := by
  revert h
  revert m
  decide

theorem decodeOne_escapeChar (c : Char) (tail : List Char) :
    decodeOne (escapeChar c ++ tail) = some (some c, tail) := by
  unfold escapeChar
  split_ifs with h1 h2 h3 h4 h5 h6 h7 h8
  · subst h1; simp [decodeOne, unescapeChar]
  · subst h2; simp [decodeOne, unescapeChar]
  · subst h3; simp [decodeOne, unescapeChar]
  · subst h4; simp [decodeOne, unescapeChar]
  · subst h5; simp [decodeOne, unescapeChar]
  · subst h6; simp [decodeOne, unescapeChar]
  · subst h7; simp [decodeOne, unescapeChar]
  · have hd1 : c.toNat / 16 < 16 := by omega
    have hd2 : c.toNat % 16 < 16 := by omega
    simp only [List.cons_append, List.nil_append, decodeOne,
      parseHexDigit_hexLower _ hd1, parseHexDigit_hexLower _ hd2]
    have hzero : parseHexDigit '0' = some 0 := by decide
    simp only [hzero]
    have hn : ((0 * 16 + 0) * 16 + c.toNat / 16) * 16 + c.toNat % 16 = c.toNat := by
      omega
    simp only [hn]
    have hlt : c.toNat < 55296 := by omega
    simp [hlt, Char.ofNat_toNat, decide_eq_true_eq]
  · have hq : ¬ c = '"' := h1
    have hb : ¬ c = '\\' := h2
    simp [decodeOne, hq, hb]

theorem escapeAll_length (s : List Char) : s.length ≤ (escapeAll s).length := by
  induction s with
  | nil => simp [escapeAll]
  | cons c cs ih =>
    have : 1 ≤ (escapeChar c).length := by
      unfold escapeChar
      split_ifs <;> simp
    simp only [escapeAll, List.length_cons, List.length_append]
    omega

theorem decodeBodyFuel_round (s : List Char) :
    ∀ (n : Nat) (rest : List Char), s.length + 1 ≤ n →
      decodeBodyFuel n (escapeAll s ++ '"' :: rest) = some (s, rest) := by
  induction s with
  | nil =>
    intro n rest hn
    obtain ⟨m, rfl⟩ : ∃ m, n = m + 1 := ⟨n - 1, by omega⟩
    simp [decodeBodyFuel, escapeAll, decodeOne]
  | cons c cs ih =>
    intro n rest hn
    obtain ⟨m, rfl⟩ : ∃ m, n = m + 1 := ⟨n - 1, by omega⟩
    have hm : cs.length + 1 ≤ m := by
      simp only [List.length_cons] at hn
      omega
    simp only [escapeAll, List.append_assoc, decodeBodyFuel,
      decodeOne_escapeChar, ih m rest hm]

theorem decodeTagsTailFuel_round (ts : List Rstr) :
    ∀ (n : Nat), (encodeJsonTagsTail ts).length ≤ n →
      decodeTagsTailFuel n (encodeJsonTagsTail ts) = some (ts, []) := by
  induction ts with
  | nil =>
    intro n hn
    obtain ⟨m, rfl⟩ : ∃ m, n = m + 1 := ⟨n - 1, by simp [encodeJsonTagsTail] at hn; omega⟩
    simp [decodeTagsTailFuel, encodeJsonTagsTail]
  | cons t ts ih =>
    intro n hn
    obtain ⟨m, rfl⟩ : ∃ m, n = m + 1 := ⟨n - 1, by simp [encodeJsonTagsTail] at hn; omega⟩
    have hshape : encodeJsonTagsTail (t :: ts) =
        ',' :: '"' :: (escapeAll t ++ '"' :: encodeJsonTagsTail ts) := by
      simp [encodeJsonTagsTail, encodeJsonString]
    have hbody : decodeBodyFuel ((escapeAll t ++ '"' :: encodeJsonTagsTail ts).length + 1)
        (escapeAll t ++ '"' :: encodeJsonTagsTail ts) = some (t, encodeJsonTagsTail ts) := by
      apply decodeBodyFuel_round
      have := escapeAll_length t
      simp only [List.length_append, List.length_cons]
      omega
    have hm : (encodeJsonTagsTail ts).length ≤ m := by
      rw [hshape] at hn
      simp only [List.length_cons, List.length_append] at hn
      omega
    rw [hshape]
    simp only [decodeTagsTailFuel, hbody, ih m hm]

theorem jsonDecode_jsonEncode (ts : List Rstr) :
    jsonDecodeStringList (jsonEncodeStringList ts) = some ts := by
  cases ts with
  | nil => simp [jsonEncodeStringList, jsonDecodeStringList]
  | cons t ts =>
    have hshape : jsonEncodeStringList (t :: ts) =
        '[' :: '"' :: (escapeAll t ++ '"' :: encodeJsonTagsTail ts) := by
      simp [jsonEncodeStringList, encodeJsonString]
    rw [hshape]
    simp only [jsonDecodeStringList]
    rw [decodeBodyFuel_round t _ (encodeJsonTagsTail ts)
      (by have := escapeAll_length t; simp only [List.length_append, List.length_cons]; omega)]
    dsimp only
    rw [decodeTagsTailFuel_round ts ((encodeJsonTagsTail ts).length + 1) (by omega)]
    simp

/-- C1 counterexample: `Manifest::insert` does not remove stale pairs.
After `insert("f","i1"); insert("f","i2")` the stale reverse entry
`i1 ↦ f` survives, so the mutual-inverse invariant is broken and
`identifier_to_filename` is no longer an injection. -/
theorem manifest_insert_stale_pair_cex :
    ¬ mutualInverse ((Manifest.new.insert (str "f") (str "i1")).insert
        (str "f") (str "i2"))
    ∧ ¬ reverseInjective ((Manifest.new.insert (str "f") (str "i1")).insert
        (str "f") (str "i2")) := by
  constructor
  · intro h
    have h2 := (h (str "f") (str "i1")).mpr (by decide)
    exact absurd h2 (by decide)
  · intro h
    have h2 := h (str "i1") (str "i2") (str "f") (by decide) (by decide)
    exact absurd h2 (by decide)

/-- C1 (amended): `Manifest::insert` overwrites the two forward entries but
removes no stale pair; the mutual-inverse invariant (and the injectivity of
`identifier_to_filename`) is preserved by `insert(f, i)` when neither `f`
nor `i` is already bound. -/
theorem manifest_insert_fresh_preserves_invariant (m : Manifest) (f i : Rstr)
    (hm : mutualInverse m)
    (hf : findA m.filename_to_identifier f = none)
    (hi : findA m.identifier_to_filename i = none) :
    mutualInverse (m.insert f i) ∧ reverseInjective (m.insert f i) := by
  have hmi : mutualInverse (m.insert f i) := by
    intro f' i'
    simp only [Manifest.insert, findA_insertA]
    by_cases hff : f = f'
    · subst hff
      by_cases hii : i = i'
      · subst hii
        simp
      · constructor
        · intro h
          rw [if_pos rfl] at h
          exact absurd (Option.some.inj h) hii
        · intro h
          rw [if_neg hii] at h
          have h2 := (hm f i').mpr h
          rw [hf] at h2
          exact absurd h2 (by simp)
    · by_cases hii : i = i'
      · subst hii
        constructor
        · intro h
          rw [if_neg hff] at h
          have h2 := (hm f' i).mp h
          rw [hi] at h2
          exact absurd h2 (by simp)
        · intro h
          rw [if_pos rfl] at h
          exact absurd (Option.some.inj h) hff
      · rw [if_neg hff, if_neg hii]
        exact hm f' i'
  refine ⟨hmi, ?_⟩
  intro i1 i2 f' h1 h2
  have e1 := (hmi f' i1).mpr h1
  have e2 := (hmi f' i2).mpr h2
  rw [e1] at e2
  exact Option.some.inj e2

/-- Witness for the amended C1 theorem at a concrete fresh pair. -/
theorem manifest_insert_fresh_preserves_invariant_witness :
    mutualInverse (Manifest.new.insert (str "f") (str "i"))
    ∧ reverseInjective (Manifest.new.insert (str "f") (str "i")) :=
  manifest_insert_fresh_preserves_invariant Manifest.new (str "f") (str "i")
    (by intro f i; simp [Manifest.new, findA]) rfl rfl

theorem claimCount_pos (drafts : List PageDraft) (d : PageDraft) (hd : d ∈ drafts) :
    1 ≤ claimCount drafts d.identifier := by
  have hmem : d ∈ drafts.filter (fun x => x.identifier = d.identifier) :=
    List.mem_filter.mpr ⟨hd, by simp⟩
  have := List.length_pos.mpr (List.ne_nil_of_mem hmem)
  simpa [claimCount] using this

/-- C3: the collision policy of `validate_batch_collisions`.  A draft
survives iff it is the unique claimant of its identifier within the batch
and its identifier is not bound in the manifest to a different filename;
in particular when an identifier has two or more claimants in the batch,
every claimant is rejected (symmetric rejection). -/
theorem validate_batch_collisions_policy (m : Manifest) (drafts : List PageDraft) :
    (∀ identifier, 2 ≤ claimCount drafts identifier →
      ∀ d, d ∈ drafts → d.identifier = identifier →
        d ∉ validate_batch_collisions m drafts)
    ∧ (∀ d, d ∈ validate_batch_collisions m drafts ↔
        d ∈ drafts ∧ claimCount drafts d.identifier = 1 ∧
          (m.has_identifier d.identifier = false ∨
            m.get_filename_for_identifier d.identifier = some d.filename)) := by
  have hmem : ∀ d, d ∈ validate_batch_collisions m drafts ↔
      d ∈ drafts ∧ claimCount drafts d.identifier ≤ 1 ∧
        (m.has_identifier d.identifier = false ∨
          m.get_filename_for_identifier d.identifier = some d.filename) := by
    intro d
    rw [validate_batch_collisions, List.mem_filter]
    constructor
    · rintro ⟨hd, hp⟩
      refine ⟨hd, ?_, ?_⟩
      · by_contra hgt
        simp only [not_le] at hgt
        simp [hgt] at hp
      · by_cases hc : claimCount drafts d.identifier > 1
        · simp [hc] at hp
        · simp only [hc, if_false] at hp
          by_cases hh : m.has_identifier d.identifier = true
          · by_cases hg : m.get_filename_for_identifier d.identifier = some d.filename
            · exact Or.inr hg
            · simp [hh, hg] at hp
          · exact Or.inl (by simpa using hh)
    · rintro ⟨hd, hc, hrest⟩
      have hc2 : ¬ claimCount drafts d.identifier > 1 := by omega
      refine ⟨hd, ?_⟩
      simp only [hc2, if_false]
      rcases hrest with hh | hg
      · simp [hh]
      · simp [hg]
  constructor
  · intro identifier h2 d hd hid hmem2
    have := (hmem d).mp hmem2
    rw [hid] at this
    omega
  · intro d
    rw [hmem d]
    constructor
    · rintro ⟨hd, hc, hrest⟩
      have := claimCount_pos drafts d hd
      exact ⟨hd, by omega, hrest⟩
    · rintro ⟨hd, hc, hrest⟩
      exact ⟨hd, by omega, hrest⟩

/-- Witness for C3: in a batch where `x1.md` and `x2.md` both claim `dup`
and `z.md` claims a fresh identifier, `x1.md` is rejected and `z.md`
survives. -/
theorem validate_batch_collisions_policy_witness :
    draftDup1 ∉ validate_batch_collisions Manifest.new [draftDup1, draftDup2, draftZ]
    ∧ draftZ ∈ validate_batch_collisions Manifest.new [draftDup1, draftDup2, draftZ] :=
  ⟨(validate_batch_collisions_policy Manifest.new [draftDup1, draftDup2, draftZ]).1
      (str "dup") (by decide) draftDup1 (by simp) rfl,
    ((validate_batch_collisions_policy Manifest.new [draftDup1, draftDup2, draftZ]).2
        draftZ).mpr ⟨by simp, by decide, Or.inl (by decide)⟩⟩

/-- C9: the stored-row round trip `Page → DbPage → Page` succeeds and
preserves every field; empty tags are stored as an absent column and read
back empty, non-empty tags round-trip through their JSON array encoding. -/
theorem page_db_page_roundtrip (page : Page) :
    dbPageToPage (pageToDbPage page) = Except.ok page := by
  obtain ⟨ident, fn, name, html, md, hash, tags, mdt, cdt⟩ := page
  cases tags with
  | nil => simp [pageToDbPage, dbPageToPage]
  | cons t ts =>
    simp [pageToDbPage, dbPageToPage, jsonDecode_jsonEncode]

theorem remove_by_filename_removes (m : Manifest) (f : Rstr) :
    findA (m.remove_by_filename f).filename_to_identifier f = none := by
  unfold Manifest.remove_by_filename
  cases h : findA m.filename_to_identifier f with
  | none => simpa using h
  | some identifier => simp [findA_eraseA]

/-- C10: `handle_file_deleted` never fails because the path lies outside the
content root: when `strip_prefix` fails, the full path itself (backslashes
replaced by `/`) is used as the filename for the repository delete, cache
removal and manifest removal — while discovery rejects the same path with
an error. -/
theorem handle_file_deleted_out_of_root (o : RepoOracle) (config : ChasquiConfig)
    (st : SyncState) (path : Rstr)
    (hout : stripRoot config.content_dir path = none)
    (hdel : o.deleteFails (replaceBackslash path) = false) :
    (handle_file_deleted o config st path).1 = Except.ok ()
    ∧ findA (handle_file_deleted o config st path).2.cache
        (replaceBackslash path) = none
    ∧ findA (handle_file_deleted o config st path).2.repo
        (replaceBackslash path) = none
    ∧ findA (handle_file_deleted o config st path).2.manifest.filename_to_identifier
        (replaceBackslash path) = none
    ∧ discoverRelativeFilename config.content_dir path = Except.error () := by
  refine ⟨?_, ?_, ?_, ?_, ?_⟩ <;>
    simp [handle_file_deleted, discoverRelativeFilename, hout, hdel,
      findA_eraseA, remove_by_filename_removes]

/-- Witness for C10 at a concrete out-of-root path. -/
theorem handle_file_deleted_out_of_root_witness :
    (handle_file_deleted reliableRepo plainConfig initialState
        (str "/outside/f.md")).1 = Except.ok ()
    ∧ findA (handle_file_deleted reliableRepo plainConfig initialState
        (str "/outside/f.md")).2.cache (replaceBackslash (str "/outside/f.md")) = none
    ∧ findA (handle_file_deleted reliableRepo plainConfig initialState
        (str "/outside/f.md")).2.repo (replaceBackslash (str "/outside/f.md")) = none
    ∧ findA (handle_file_deleted reliableRepo plainConfig initialState
        (str "/outside/f.md")).2.manifest.filename_to_identifier
        (replaceBackslash (str "/outside/f.md")) = none
    ∧ discoverRelativeFilename plainConfig.content_dir (str "/outside/f.md")
        = Except.error () :=
  handle_file_deleted_out_of_root reliableRepo plainConfig initialState
    (str "/outside/f.md") (by decide) rfl

/-- C2 counterexample: with two valid drafts `a.md` and `b.md` and a
repository whose save of `a.md` fails, `process_batch` both surfaces the
error as its own result (not per-draft) and never processes the subsequent
valid draft `b.md`: the final cache and repository lack it. -/
theorem process_batch_first_error_stops_batch_cex :
    validate_batch_collisions initialState.manifest
        (discoveryPass discAB [str "a.md", str "b.md"])
      = [draftALinked, draftBPlain]
    ∧ (process_batch failSaveA plainConfig discAB initialState
        [str "a.md", str "b.md"] []).1 = Except.error ()
    ∧ findA (process_batch failSaveA plainConfig discAB initialState
        [str "a.md", str "b.md"] []).2.cache (str "b.md") = none
    ∧ findA (process_batch failSaveA plainConfig discAB initialState
        [str "a.md", str "b.md"] []).2.repo (str "b.md") = none := by
  refine ⟨by decide, rfl, by decide, by decide⟩

/-- C2 (amended): per-draft error recovery holds for the discovery pass —
a failed discovery is skipped and the batch continues — but not for the
ingestion pass: the first failing `handle_file_changed` aborts the loop
with its error, leaving every remaining valid draft unprocessed and the
state exactly as it was before the failing draft. -/
theorem ingestion_error_aborts_batch (o : RepoOracle) (config : ChasquiConfig) :
    (∀ (disc : Rstr → Except Unit PageDraft) (p : Rstr) (changes : List Rstr),
      disc p = Except.error () →
        discoveryPass disc (p :: changes) = discoveryPass disc changes)
    ∧ (∀ (st : SyncState) (d : PageDraft) (rest : List PageDraft),
      (handle_file_changed o config st d).1 = Except.error () →
        ingestionPass o config st (d :: rest) = (Except.error (), st)) := by
  constructor
  · intro disc p changes hp
    simp [discoveryPass, List.filterMap_cons, hp, Except.toOption]
  · intro st d rest herr
    have hfail : handle_file_changed o config st d = (Except.error (), st) := by
      by_cases hs : o.saveFails (pageOfDraft config st d) = true
      · simp [handle_file_changed, hs]
      · simp [handle_file_changed, hs] at herr
    simp [ingestionPass, hfail]

/-- Witness for the amended C2 theorem: one failing draft aborts a
two-draft ingestion, and a failed discovery is skipped. -/
theorem ingestion_error_aborts_batch_witness :
    discoveryPass discAB [str "nope.md", str "b.md"] = [draftBPlain]
    ∧ ingestionPass failSaveA plainConfig initialState [draftALinked, draftBPlain]
        = (Except.error (), initialState) := by
  constructor
  · rw [(ingestion_error_aborts_batch failSaveA plainConfig).1 discAB
      (str "nope.md") [str "b.md"] rfl]
    decide
  · exact (ingestion_error_aborts_batch failSaveA plainConfig).2 initialState
      draftALinked [draftBPlain] rfl

theorem map_id_of_fixed {α : Type} (f : α → α) (l : List α)
    (h : ∀ a ∈ l, f a = a) : l.map f = l := by
  induction l with
  | nil => rfl
  | cons a as ih =>
    simp only [List.map_cons, h a (by simp)]
    rw [ih (fun a ha => h a (by simp [ha]))]

/-- C4 counterexample: with `strip_extensions` off, the spec's default
identifier for `post.md` keeps the extension, but the code's
`generate_default_identifier` strips it unconditionally. -/
theorem default_identifier_flag_cex :
    resolveDraftIdentifier none (str "post.md") = str "post"
    ∧ specDefaultIdentifier plainConfig (str "post.md") = str "post.md"
    ∧ (str "post" : Rstr) ≠ str "post.md" :=
  ⟨by decide, by decide, by decide⟩

/-- C4 (amended): the default identifier strips the extension regardless of
the `strip_extensions` flag (the flag is not consulted on this path): for
every file `stem.md` the resolved default identifier is `stem`, which
matches the spec's identifier only in the `strip_extensions = true` branch. -/
theorem generate_default_identifier_ignores_flag (config : ChasquiConfig)
    (stem : Rstr) (h1 : stem ≠ []) (h2 : '/' ∉ stem) (h3 : '\\' ∉ stem) :
    resolveDraftIdentifier none (stem ++ str ".md") = stem
    ∧ specDefaultIdentifier config (stem ++ str ".md")
        = (if config.strip_extensions then stem else stem ++ str ".md") := by
  have hrev : (stem ++ str ".md").reverse = 'd' :: 'm' :: '.' :: stem.reverse := by
    simp [str]
  have hname : (stem ++ str ".md").reverse.takeWhile (fun c => !(c = '/' : Bool))
      = (stem ++ str ".md").reverse := by
    apply List.takeWhile_eq_self_iff.mpr
    intro c hc
    rw [List.mem_reverse] at hc
    simp only [Bool.not_eq_true', decide_eq_false_iff_not]
    intro he
    subst he
    rcases List.mem_append.mp hc with h | h
    · exact h2 h
    · exact absurd h (by decide)
  have hsplit : splitLastSlash (stem ++ str ".md") = ([], stem ++ str ".md") := by
    unfold splitLastSlash
    rw [hname]
    simp
    omega
  have hrem : removeExtension (stem ++ str ".md") = stem := by
    have hafter : (stem ++ str ".md").reverse.takeWhile (fun c => !(c = '.' : Bool))
        = ['d', 'm'] := by
      rw [hrev]
      simp [List.takeWhile_cons]
    have hlen : (stem ++ str ".md").reverse.length = stem.length + 3 := by
      simp [str]
    unfold removeExtension
    rw [hafter, hlen, hrev]
    have hne : ¬ ((['d', 'm'] : List Char).length = stem.length + 3) := by
      simp
    rw [if_neg hne]
    have hdrop : (('d' :: 'm' :: '.' :: stem.reverse : List Char).drop
        ((['d', 'm'] : List Char).length + 1)) = stem.reverse := by
      simp
    rw [hdrop]
    have hsne : stem.reverse ≠ [] := by
      simpa using h1
    rw [if_neg hsne, List.reverse_reverse]
  have hwe : withExtensionEmpty (stem ++ str ".md") = stem := by
    rw [withExtensionEmpty, hsplit]
    simpa using hrem
  have hrb : replaceBackslash stem = stem := by
    apply map_id_of_fixed
    intro c hc
    have : ¬ c = '\\' := fun he => h3 (he ▸ hc)
    simp [this]
  constructor
  · show generate_default_identifier (stem ++ str ".md") = stem
    rw [generate_default_identifier, hwe, hrb]
  · rw [specDefaultIdentifier, hwe]

/-- Witness for the amended C4 theorem at `post.md`. -/
theorem generate_default_identifier_ignores_flag_witness :
    resolveDraftIdentifier none (str "post" ++ str ".md") = str "post"
    ∧ specDefaultIdentifier plainConfig (str "post" ++ str ".md")
        = (if plainConfig.strip_extensions then str "post"
            else str "post" ++ str ".md") :=
  generate_default_identifier_ignores_flag plainConfig (str "post")
    (by decide) (by decide) (by decide)

/-- C6 counterexample: `resolve_link` keeps only the segment between the
first and the second `#`.  For `a#b#c` (with `a ↦ x` in the manifest) it
produces `/x#b`, not the claim's `/x` plus the entire remainder `#b#c`. -/
theorem resolve_link_second_hash_cex :
    manifestAX.resolve_link (str "a#b#c") (str "cur.md") plainConfig = str "/x#b"
    ∧ str "/x#b" ≠ '/' :: (str "x" ++ ('#' :: str "b#c")) :=
  ⟨by decide, by decide⟩

/-- C6 (amended): for a resolvable non-external link with two or more `#`,
the lookup key is everything left of the first `#`, and the appended
fragment is `#` plus the segment strictly between the first and second `#`;
everything from the second `#` on is dropped. -/
theorem resolve_link_fragment_between_hashes (m : Manifest) (config : ChasquiConfig)
    (current_filename a b c : Rstr) (id : Rstr)
    (ha : '#' ∉ a) (hb : '#' ∉ b)
    (hx : isExternalLink (a ++ '#' :: (b ++ '#' :: c)) = false)
    (hrel : isRelativeLookup a = false)
    (hslash : a.dropWhile (fun ch => ch = '/') = a)
    (hlook : findA m.filename_to_identifier a = some id)
    (hhome : (config.serve_home && id = config.home_identifier) = false) :
    m.resolve_link (a ++ '#' :: (b ++ '#' :: c)) current_filename config
      = '/' :: (id ++ ('#' :: b)) := by
  have hsplit2 : splitChar '#' (a ++ '#' :: (b ++ '#' :: c))
      = a :: b :: splitChar '#' c := by
    rw [splitChar_append '#' a (b ++ '#' :: c) ha, splitChar_append '#' b c hb]
  simp only [Manifest.resolve_link, hx, Bool.false_eq_true, if_false, hsplit2,
    List.headD_cons, List.get?, resolveLookupKey, hrel, hslash, hlook,
    Option.map_some', Option.getD_some, hhome]

/-- Witness for the amended C6 theorem at `a#b#c`. -/
theorem resolve_link_fragment_between_hashes_witness :
    manifestAX.resolve_link (str "a" ++ '#' :: (str "b" ++ '#' :: str "c"))
        (str "cur.md") plainConfig = '/' :: (str "x" ++ ('#' :: str "b")) :=
  resolve_link_fragment_between_hashes manifestAX plainConfig (str "cur.md")
    (str "a") (str "b") (str "c") (str "x")
    (by decide) (by decide) rfl rfl rfl rfl rfl

/-- C7 counterexample: for the link `../../b.md` from `a.md` the claim's
traversal count drops below zero (so the claim says resolution must fail),
yet `resolve_link` silently clamps the excess `..` at the root and resolves
the link to `/b`. -/
theorem resolve_link_traversal_clamp_cex :
    traversalOk ((countNormals (pathComponents (str "a.md")).dropLast : Nat) : Int)
        (pathComponents (str "../../b.md")) = false
    ∧ manifestB.resolve_link (str "../../b.md") (str "a.md") plainConfig = str "/b"
    ∧ str "/b" ≠ str "../../b.md" :=
  ⟨by decide, by decide, by decide⟩

/-- C7 (amended): `normalize_path_string` treats a `..` at root depth as a
no-op (clamping) instead of failing, and its output contains only names of
`Normal` components of the input — so a `./`/`../` lookup key can never
denote an entry above the content root, but over-traversal silently clamps
instead of failing. -/
theorem normalize_clamps_at_root :
    (∀ cs, normalizeComponents (Component.parentDir :: cs) = normalizeComponents cs)
    ∧ (∀ cs name, name ∈ normalizeComponents cs → Component.normal name ∈ cs) := by
  constructor
  · intro cs
    rfl
  · have haux : ∀ (cs : List Component) (acc : List Rstr) (name : Rstr),
        name ∈ cs.foldl normalizeStep acc → name ∈ acc ∨ Component.normal name ∈ cs := by
      intro cs
      induction cs with
      | nil =>
        intro acc name h
        exact Or.inl h
      | cons c cs ih =>
        intro acc name h
        simp only [List.foldl_cons] at h
        rcases ih (normalizeStep acc c) name h with hacc | hmem
        · cases c with
          | curDir => exact Or.inl hacc
          | rootDir => exact Or.inl hacc
          | parentDir => exact Or.inl (List.dropLast_subset _ hacc)
          | normal nm =>
            simp only [normalizeStep] at hacc
            rcases List.mem_append.mp hacc with h1 | h2
            · exact Or.inl h1
            · simp only [List.mem_singleton] at h2
              subst h2
              exact Or.inr (by simp)
        · exact Or.inr (List.mem_cons_of_mem _ hmem)
    intro cs name h
    rcases haux cs [] name h with h1 | h2
    · exact absurd h1 (by simp)
    · exact h2

/-- Witness for the amended C7 theorem: the name surviving normalization of
`../../b.md`-style input is a `Normal` component of the input. -/
theorem normalize_clamps_at_root_witness :
    Component.normal (str "b.md")
      ∈ [Component.parentDir, Component.parentDir, Component.normal (str "b.md")] :=
  normalize_clamps_at_root.2
    [Component.parentDir, Component.parentDir, Component.normal (str "b.md")]
    (str "b.md") (by decide)

theorem lexicalDepth_append (xs ys : List Component) :
    lexicalDepth (xs ++ ys) = lexicalDepth xs + lexicalDepth ys := by
  induction xs with
  | nil => simp [lexicalDepth]
  | cons c cs ih =>
    cases c <;>
      simp only [List.cons_append, lexicalDepth, List.append_eq, ih] <;> omega

theorem lexicalDepth_of_noParentDir (cs : List Component)
    (h : noParentDir cs = true) : lexicalDepth cs = (countNormals cs : Int) := by
  induction cs with
  | nil => simp [lexicalDepth, countNormals]
  | cons c cs ih =>
    have hc : noParentDir cs = true := by
      simp only [noParentDir, List.all_cons, Bool.and_eq_true] at h
      exact h.2
    have hn : ¬ c = Component.parentDir := by
      simp only [noParentDir, List.all_cons, Bool.and_eq_true,
        Bool.not_eq_true', decide_eq_false_iff_not] at h
      exact h.1
    cases c with
    | normal name =>
      have hcn : countNormals (Component.normal name :: cs) = countNormals cs + 1 := by
        simp [countNormals, List.filter]
      rw [show lexicalDepth (Component.normal name :: cs)
          = lexicalDepth cs + 1 from rfl, hcn, ih hc]
      omega
    | parentDir => exact absurd rfl hn
    | curDir =>
      have hcn : countNormals (Component.curDir :: cs) = countNormals cs := by
        simp [countNormals, List.filter]
      rw [show lexicalDepth (Component.curDir :: cs) = lexicalDepth cs from rfl,
        hcn, ih hc]
    | rootDir =>
      have hcn : countNormals (Component.rootDir :: cs) = countNormals cs := by
        simp [countNormals, List.filter]
      rw [show lexicalDepth (Component.rootDir :: cs) = lexicalDepth cs from rfl,
        hcn, ih hc]

theorem traversalOk_iff (link : List Component) : ∀ d : Int, 0 ≤ d →
    (traversalOk d link = true ↔ ∀ k, 0 ≤ d + lexicalDepth (link.take k)) := by
  induction link with
  | nil =>
    intro d hd
    simp only [traversalOk, true_iff, List.take_nil, lexicalDepth]
    intro k
    omega
  | cons c cs ih =>
    intro d hd
    cases c with
    | normal name =>
      rw [show traversalOk d (Component.normal name :: cs)
          = traversalOk (d + 1) cs from rfl]
      rw [ih (d + 1) (by omega)]
      constructor
      · intro h k
        cases k with
        | zero => simp only [List.take_zero, lexicalDepth]; omega
        | succ j =>
          have hj := h j
          simp only [List.take_succ_cons, lexicalDepth]
          omega
      · intro h j
        have hj := h (j + 1)
        simp only [List.take_succ_cons, lexicalDepth] at hj
        omega
    | parentDir =>
      rw [show traversalOk d (Component.parentDir :: cs)
          = (if d - 1 < 0 then false else traversalOk (d - 1) cs) from rfl]
      by_cases hz : d - 1 < 0
      · rw [if_pos hz]
        constructor
        · intro h
          exact absurd h (by simp)
        · intro h
          have h1 := h 1
          simp only [List.take_succ_cons, List.take_zero, lexicalDepth] at h1
          omega
      · rw [if_neg hz]
        rw [ih (d - 1) (by omega)]
        constructor
        · intro h k
          cases k with
          | zero => simp only [List.take_zero, lexicalDepth]; omega
          | succ j =>
            have hj := h j
            simp only [List.take_succ_cons, lexicalDepth]
            omega
        · intro h j
          have hj := h (j + 1)
          simp only [List.take_succ_cons, lexicalDepth] at hj
          omega
    | curDir =>
      rw [show traversalOk d (Component.curDir :: cs) = traversalOk d cs from rfl]
      rw [ih d hd]
      constructor
      · intro h k
        cases k with
        | zero => simp only [List.take_zero, lexicalDepth]; omega
        | succ j =>
          have hj := h j
          simp only [List.take_succ_cons, lexicalDepth]
          omega
      · intro h j
        have hj := h (j + 1)
        simp only [List.take_succ_cons, lexicalDepth] at hj
        omega
    | rootDir =>
      rw [show traversalOk d (Component.rootDir :: cs) = traversalOk d cs from rfl]
      rw [ih d hd]
      constructor
      · intro h k
        cases k with
        | zero => simp only [List.take_zero, lexicalDepth]; omega
        | succ j =>
          have hj := h j
          simp only [List.take_succ_cons, lexicalDepth]
          omega
      · intro h j
        have hj := h (j + 1)
        simp only [List.take_succ_cons, lexicalDepth] at hj
        omega

/-- C8 counterexample: two in-scope inputs break the claim.  For a base
file that itself contains `..` components (`../../a.md`),
`verify_relative_path` succeeds yet returns a path whose lexical depth
relative to the root is negative; and for an absolute link
(`/etc/passwd`, whose `RootDir` is a no-op in the depth loop),
`PathBuf::push` replaces the accumulated path, so the call succeeds and
returns `/etc/passwd` itself — escaping the root — instead of the claim's
`root / parent / link`. -/
theorem verify_relative_path_dirty_base_cex :
    (verify_relative_path []
        [Component.parentDir, Component.parentDir, Component.normal (str "a.md")]
        [Component.normal (str "b.md")]
      = some [Component.parentDir, Component.parentDir, Component.normal (str "b.md")]
    ∧ lexicalDepth
        [Component.parentDir, Component.parentDir, Component.normal (str "b.md")]
      < 0)
    ∧ (verify_relative_path [Component.normal (str "r")]
        [Component.normal (str "a.md")]
        [Component.rootDir, Component.normal (str "etc"), Component.normal (str "passwd")]
      = some [Component.rootDir, Component.normal (str "etc"),
          Component.normal (str "passwd")]
    ∧ ([Component.rootDir, Component.normal (str "etc"),
          Component.normal (str "passwd")] : List Component)
      ≠ [Component.normal (str "r")]
        ++ ([Component.normal (str "a.md")] : List Component).dropLast
        ++ [Component.rootDir, Component.normal (str "etc"),
            Component.normal (str "passwd")]) :=
  ⟨⟨by decide, by decide⟩, by decide, by decide⟩

theorem pathPush_of_not_absolute (base addition : List Component)
    (h : isAbsoluteComponents addition = false) :
    pathPush base addition = base ++ addition := by
  cases addition with
  | nil => rfl
  | cons c cs =>
    cases c
    · rfl
    · rfl
    · rfl
    · exact absurd h (by simp [isAbsoluteComponents])

/-- C8 (amended): `verify_relative_path` succeeds exactly when the traversal
count (started at the number of `Normal` components of the base file's
parent) never drops below zero; on success, provided neither the base
file's parent nor the link is an absolute path, it returns
`root ++ parent ++ link`, and if the parent additionally contains no `..`
component, the returned path's lexical depth relative to the root is never
negative.  (The counterexample shows both provisos are necessary: a `..`
in the base or an absolute link each defeats the safety consequence, the
latter because `PathBuf::push` of an absolute path replaces the
accumulated path.) -/
theorem verify_relative_path_characterization
    (root base_rel_file link : List Component) :
    ((verify_relative_path root base_rel_file link).isSome ↔
      ∀ k, 0 ≤ (countNormals base_rel_file.dropLast : Int)
        + lexicalDepth (link.take k))
    ∧ (isAbsoluteComponents base_rel_file.dropLast = false →
        isAbsoluteComponents link = false →
        ∀ p, verify_relative_path root base_rel_file link = some p →
          p = root ++ base_rel_file.dropLast ++ link)
    ∧ (noParentDir base_rel_file.dropLast = true →
        isAbsoluteComponents base_rel_file.dropLast = false →
        isAbsoluteComponents link = false →
        ∀ p, verify_relative_path root base_rel_file link = some p →
          p = root ++ base_rel_file.dropLast ++ link
          ∧ 0 ≤ lexicalDepth (base_rel_file.dropLast ++ link)) := by
  have hnn : (0 : Int) ≤ (countNormals base_rel_file.dropLast : Int) :=
    Int.natCast_nonneg _
  have hiff := traversalOk_iff link ((countNormals base_rel_file.dropLast : Nat) : Int) hnn
  have hshape : ∀ p, verify_relative_path root base_rel_file link = some p →
      isAbsoluteComponents base_rel_file.dropLast = false →
      isAbsoluteComponents link = false →
      p = root ++ base_rel_file.dropLast ++ link := by
    intro p hp habsb habsl
    unfold verify_relative_path at hp
    by_cases ht : traversalOk ((countNormals base_rel_file.dropLast : Nat) : Int) link = true
    · rw [if_pos ht] at hp
      rw [pathPush_of_not_absolute root base_rel_file.dropLast habsb,
        pathPush_of_not_absolute _ link habsl] at hp
      exact (Option.some.inj hp).symm
    · rw [if_neg ht] at hp
      exact absurd hp (by simp)
  refine ⟨?_, ?_, ?_⟩
  · rw [← hiff]
    unfold verify_relative_path
    by_cases ht : traversalOk ((countNormals base_rel_file.dropLast : Nat) : Int) link = true
      <;> simp [ht]
  · intro habsb habsl p hp
    exact hshape p hp habsb habsl
  · intro hclean habsb habsl p hp
    refine ⟨hshape p hp habsb habsl, ?_⟩
    have hsome : (verify_relative_path root base_rel_file link).isSome := by
      rw [hp]
      rfl
    have ht : traversalOk ((countNormals base_rel_file.dropLast : Nat) : Int) link
        = true := by
      unfold verify_relative_path at hsome
      by_cases ht : traversalOk ((countNormals base_rel_file.dropLast : Nat) : Int)
          link = true
      · exact ht
      · rw [if_neg ht] at hsome
        exact absurd hsome (by simp)
    have hall := hiff.mp ht
    have hfull := hall link.length
    rw [List.take_length] at hfull
    rw [lexicalDepth_append, lexicalDepth_of_noParentDir _ hclean]
    exact hfull

/-- Witness for the amended C8 theorem at a clean, relative base and link. -/
theorem verify_relative_path_characterization_witness :
    [Component.normal (str "root"), Component.normal (str "dir"),
        Component.parentDir, Component.normal (str "b.md")]
      = [Component.normal (str "root")]
        ++ ([Component.normal (str "dir"), Component.normal (str "a.md")] :
            List Component).dropLast
        ++ [Component.parentDir, Component.normal (str "b.md")]
    ∧ 0 ≤ lexicalDepth
        (([Component.normal (str "dir"), Component.normal (str "a.md")] :
            List Component).dropLast
          ++ [Component.parentDir, Component.normal (str "b.md")]) :=
  (verify_relative_path_characterization [Component.normal (str "root")]
      [Component.normal (str "dir"), Component.normal (str "a.md")]
      [Component.parentDir, Component.normal (str "b.md")]).2.2
    (by decide) (by decide) (by decide)
    [Component.normal (str "root"), Component.normal (str "dir"),
      Component.parentDir, Component.normal (str "b.md")]
    (by decide)

theorem validate_single (m : Manifest) (d : PageDraft)
    (h : manifestAllows m d = true) :
    validate_batch_collisions m [d] = [d] := by
  have hcond : (m.has_identifier d.identifier &&
      !(m.get_filename_for_identifier d.identifier
          = some d.filename : Bool)) = false := by
    rcases (by simpa [manifestAllows] using h :
        m.has_identifier d.identifier = false ∨
          m.get_filename_for_identifier d.identifier = some d.filename) with h1 | h2
    · simp [h1]
    · simp [h2]
  simp [validate_batch_collisions, claimCount, List.filter, hcond]

theorem validate_pair (m : Manifest) (a b : PageDraft)
    (hid : a.identifier ≠ b.identifier)
    (ha : manifestAllows m a = true)
    (hb : manifestAllows m b = true) :
    validate_batch_collisions m [a, b] = [a, b] := by
  have hconda : (m.has_identifier a.identifier &&
      !(m.get_filename_for_identifier a.identifier
          = some a.filename : Bool)) = false := by
    rcases (by simpa [manifestAllows] using ha :
        m.has_identifier a.identifier = false ∨
          m.get_filename_for_identifier a.identifier = some a.filename) with h1 | h2
    · simp [h1]
    · simp [h2]
  have hcondb : (m.has_identifier b.identifier &&
      !(m.get_filename_for_identifier b.identifier
          = some b.filename : Bool)) = false := by
    rcases (by simpa [manifestAllows] using hb :
        m.has_identifier b.identifier = false ∨
          m.get_filename_for_identifier b.identifier = some b.filename) with h1 | h2
    · simp [h1]
    · simp [h2]
  have hba : ¬ b.identifier = a.identifier := fun h => hid h.symm
  simp [validate_batch_collisions, claimCount, List.filter,
    hconda, hcondb, hid, hba]

theorem has_identifier_insert_ne (m : Manifest) (f i j : Rstr) (h : ¬ i = j) :
    (m.insert f i).has_identifier j = m.has_identifier j := by
  simp [Manifest.has_identifier, containsA, Manifest.insert, findA_insertA, h]

theorem manifestAllows_insert_ne (m : Manifest) (f i : Rstr) (d : PageDraft)
    (h : ¬ i = d.identifier) :
    manifestAllows (m.insert f i) d = manifestAllows m d := by
  simp [manifestAllows, Manifest.has_identifier,
    Manifest.get_filename_for_identifier, containsA, Manifest.insert,
    findA_insertA, h]

theorem pageOfDraft_filename (config : ChasquiConfig) (st : SyncState)
    (d : PageDraft) : (pageOfDraft config st d).filename = d.filename := rfl

theorem ingestion_ok_cons (o : RepoOracle) (config : ChasquiConfig)
    (st : SyncState) (d : PageDraft) (rest : List PageDraft)
    (h : o.saveFails (pageOfDraft config st d) = false) :
    ingestionPass o config st (d :: rest)
      = ingestionPass o config
          { st with
            repo := insertA st.repo d.filename (pageOfDraft config st d)
            cache := insertA st.cache d.filename (pageOfDraft config st d) }
          rest := by
  simp [ingestionPass, handle_file_changed, h, pageOfDraft_filename]

theorem process_batch_no_deletions (o : RepoOracle) (config : ChasquiConfig)
    (disc : Rstr → Except Unit PageDraft) (st : SyncState) (changes : List Rstr) :
    process_batch o config disc st changes []
      = ingestionPass o config
          { st with
            manifest :=
              (validate_batch_collisions st.manifest
                  (discoveryPass disc changes)).foldl
                (fun m draft => m.insert draft.filename draft.identifier)
                st.manifest }
          (validate_batch_collisions st.manifest (discoveryPass disc changes)) := by
  simp [process_batch, deletionPass]

/-- C5 counterexample: `a.md` links to `b.md`, both drafts have distinct
identifiers, every save succeeds, yet processing `[a]` then `[b]` caches a
different page for `a.md` than processing `[a, b]` in one batch (in the
single batch the manifest is updated before rendering, so the link
resolves to `/b`; sequentially it stays `b.md`).  And even with no cross
links, a failed save of the first draft makes the runs diverge: the
single batch aborts before `c.md` while the sequential run still
processes it. -/
theorem process_batch_not_decomposable_cex :
    (draftALinked.identifier ≠ draftBPlain.identifier
    ∧ findA ((process_batch reliableRepo plainConfig discAB
          ((process_batch reliableRepo plainConfig discAB initialState
              [str "a.md"] []).2)
          [str "b.md"] []).2).cache (str "a.md")
      ≠ findA ((process_batch reliableRepo plainConfig discAB initialState
          [str "a.md", str "b.md"] []).2).cache (str "a.md"))
    ∧ (draftBPlain.identifier ≠ draftCPlain.identifier
    ∧ findA ((process_batch failSaveB plainConfig discBC
          ((process_batch failSaveB plainConfig discBC initialState
              [str "b.md"] []).2)
          [str "c.md"] []).2).cache (str "c.md")
      ≠ findA ((process_batch failSaveB plainConfig discBC initialState
          [str "b.md", str "c.md"] []).2).cache (str "c.md")) :=
  ⟨⟨by decide, by decide⟩, by decide, by decide⟩

/-- C5 (amended): sequential processing `[a]` then `[b]` agrees with the
single batch `[a, b]` when, beyond distinct identifiers, (i) both drafts
discover successfully, (ii) each passes the manifest collision check
against the starting manifest — its identifier unbound or bound to its own
filename, which covers ordinary re-ingestion of already-known files —
(iii) every repository save succeeds, and (iv) `a`'s rendered body is
unaffected by whether `b`'s manifest entry is present (e.g. `a` does not
link to `b`).  The counterexample shows (iii) and (iv) are necessary: in
the single batch the manifest registers `b` before `a` is rendered, and a
failed save aborts the single batch before `b` while the sequential run
still processes `b`. -/
theorem process_batch_decomposes_without_cross_links
    (o : RepoOracle) (config : ChasquiConfig) (disc : Rstr → Except Unit PageDraft)
    (st : SyncState) (pa pb : Rstr) (a b : PageDraft)
    (hda : disc pa = Except.ok a) (hdb : disc pb = Except.ok b)
    (hid : a.identifier ≠ b.identifier)
    (hva : manifestAllows st.manifest a = true)
    (hvb : manifestAllows st.manifest b = true)
    (hsave : ∀ page, o.saveFails page = false)
    (hstable : compile_markdown_to_html a.content_body
        (fun link => ((st.manifest.insert a.filename a.identifier).insert
            b.filename b.identifier).resolve_link link a.filename config)
      = compile_markdown_to_html a.content_body
        (fun link => (st.manifest.insert a.filename
            a.identifier).resolve_link link a.filename config)) :
    (process_batch o config disc
        (process_batch o config disc st [pa] []).2 [pb] []).2
      = (process_batch o config disc st [pa, pb] []).2 := by
  have hdisc1 : discoveryPass disc [pa] = [a] := by
    simp [discoveryPass, hda, Except.toOption]
  have hdisc2 : discoveryPass disc [pb] = [b] := by
    simp [discoveryPass, hdb, Except.toOption]
  have hdisc12 : discoveryPass disc [pa, pb] = [a, b] := by
    simp [discoveryPass, hda, hdb, Except.toOption]
  -- the registered manifests
  set M1 := st.manifest.insert a.filename a.identifier with hM1
  set M2 := M1.insert b.filename b.identifier with hM2
  -- pages as compiled in each situation
  set pA1 := pageOfDraft config { st with manifest := M1 } a with hpA1
  set pA2 := pageOfDraft config { st with manifest := M2 } a with hpA2
  have hpagesEq : pA2 = pA1 := by
    rw [hpA1, hpA2]
    simp only [pageOfDraft]
    rw [hstable]
  -- first sequential batch
  have hbatch1 : (process_batch o config disc st [pa] []).2
      = { st with
          manifest := M1
          cache := insertA st.cache a.filename pA1
          repo := insertA st.repo a.filename pA1 } := by
    rw [process_batch_no_deletions, hdisc1, validate_single st.manifest a hva]
    rw [show ([a].foldl (fun m draft => m.insert draft.filename draft.identifier)
        st.manifest) = M1 from rfl]
    rw [ingestion_ok_cons o config _ a [] (hsave _)]
    rfl
  -- second sequential batch
  have hvb1 : manifestAllows M1 b = true := by
    rw [hM1, manifestAllows_insert_ne st.manifest a.filename a.identifier b hid]
    exact hvb
  have hbatch2 : (process_batch o config disc
      { st with
        manifest := M1
        cache := insertA st.cache a.filename pA1
        repo := insertA st.repo a.filename pA1 } [pb] []).2
      = { st with
          manifest := M2
          cache := insertA (insertA st.cache a.filename pA1) b.filename
            (pageOfDraft config { st with manifest := M2 } b)
          repo := insertA (insertA st.repo a.filename pA1) b.filename
            (pageOfDraft config { st with manifest := M2 } b) } := by
    rw [process_batch_no_deletions, hdisc2]
    rw [show ({ st with
        manifest := M1
        cache := insertA st.cache a.filename pA1
        repo := insertA st.repo a.filename pA1 } : SyncState).manifest
      = M1 from rfl]
    rw [validate_single M1 b hvb1]
    rw [ingestion_ok_cons o config _ b [] (hsave _)]
    rfl
  -- the single batch
  have hbatch12 : (process_batch o config disc st [pa, pb] []).2
      = { st with
          manifest := M2
          cache := insertA (insertA st.cache a.filename pA2) b.filename
            (pageOfDraft config { st with manifest := M2 } b)
          repo := insertA (insertA st.repo a.filename pA2) b.filename
            (pageOfDraft config { st with manifest := M2 } b) } := by
    rw [process_batch_no_deletions, hdisc12,
      validate_pair st.manifest a b hid hva hvb]
    rw [show ([a, b].foldl (fun m draft => m.insert draft.filename draft.identifier)
        st.manifest) = M2 from rfl]
    rw [ingestion_ok_cons o config _ a [b] (hsave _)]
    rw [show pageOfDraft config { st with manifest := M2 } a = pA2 from rfl]
    rw [ingestion_ok_cons o config _ b [] (hsave _)]
    rfl
  rw [hbatch1, hbatch2, hbatch12, hpagesEq]

/-- Witness for the amended C5 theorem on two link-free drafts, starting
from a manifest that already binds `b.md ⇄ b` (re-ingestion of `b.md`
alongside the new `c.md`). -/
theorem process_batch_decomposes_without_cross_links_witness :
    (process_batch reliableRepo plainConfig discBC
        (process_batch reliableRepo plainConfig discBC populatedState
            [str "b.md"] []).2
        [str "c.md"] []).2
      = (process_batch reliableRepo plainConfig discBC populatedState
          [str "b.md", str "c.md"] []).2 :=
  process_batch_decomposes_without_cross_links reliableRepo plainConfig discBC
    populatedState (str "b.md") (str "c.md") draftBPlain draftCPlain rfl rfl
    (by decide) (by decide) (by decide) (fun _ => rfl) rfl
